import Mathlib

/-!
Verification of the mantle-privacy-wallet core.

This file gives a shallow embedding of the cryptographic and
state-consistency engine of the wallet: the ERC-5564 stealth-address
derivation (packages/sdk/src/crypto/keys.ts, ecdh.ts, stealth.ts), the
commitment scheme (packages/sdk/src/indexer/client.ts), the incremental
Merkle tree (packages/contracts/src/libraries/MerkleTree.sol and the
off-chain replica MerkleTreeBuilder), the ShieldedPool contract
(packages/contracts/src/ShieldedPool.sol) and the chain event ingestor
(packages/indexer/src/scanner/event-scanner.ts), together with theorems
about them.

External primitives (the secp256k1 group operations of the noble curves
library, the SHA-256 / keccak digests, and the circomlibjs Poseidon hash)
are modelled as parameters: the curve is an arbitrary additive commutative
group whose generator is annihilated by the secp256k1 group order, and the
digest and hash functions are arbitrary function parameters.  The wallet's
own logic (scalar arithmetic mod the group order, the composition of the
derivation steps, the tree insertion loops, the contract state machine)
is embedded directly from the source.
-/

namespace MPW

/-- Order of the secp256k1 group (the constant secp256k1.CURVE.n used by
the SDK in computeStealthPrivateKey). -/
def secpN : ℕ :=
  0xfffffffffffffffffffffffffffffffebaaedce6af48a03bbfd25e8cd0364141

/-- Validity of a scalar as a secp256k1 private key: the noble library
operations used by the SDK (ProjectivePoint.fromPrivateKey and
ProjectivePoint.multiply) throw unless the scalar is nonzero and below
the group order. -/
def validScalar (k : ℕ) : Bool :=
  decide (0 < k ∧ k < secpN)

/-- Keypair as produced by generateKeypair in crypto/keys.ts.  The hex
encodings (compressed / uncompressed) are injective images of the point,
so only the point itself is kept. -/
structure Keypair (Point : Type) where
  privateKey : ℕ
  publicKey : Point
deriving DecidableEq

/-- StealthMetaAddress from crypto/keys.ts: the pair of viewing and
spending public keys published by a recipient. -/
structure MetaAddress (Point : Type) where
  viewingPublicKey : Point
  spendingPublicKey : Point
deriving DecidableEq

/-- StealthAddressInfo returned by generateStealthAddress in
crypto/stealth.ts.  The stealth address (last 20 bytes of the keccak hash
of the uncompressed stealth public key, checksummed; compared
case-insensitively) is modelled as the natural number value of those
bytes. -/
structure StealthInfo (Point : Type) where
  stealthAddress : ℕ
  ephemeralPublicKey : Point
  viewTag : ℕ
deriving DecidableEq

section Stealth

variable {Point : Type} [AddCommGroup Point]

/-- generateKeypair from crypto/keys.ts: the 32 random bytes (or caller
supplied entropy) are taken as the private key and the public key is
derived with ProjectivePoint.fromPrivateKey, which throws when the value
is zero or at least the group order; no resampling takes place. -/
def generateKeypair (g : Point) (entropy : ℕ) : Option (Keypair Point) :=
  if validScalar entropy then
    some { privateKey := entropy, publicKey := entropy • g }
  else none

/-- computeSharedSecret from crypto/ecdh.ts: multiply the public key
point by the private key (noble throws for an invalid scalar), compress
the shared point and hash it with SHA-256.  The composition of the
compression and the digest is the parameter hashPoint. -/
def computeSharedSecret (hashPoint : Point → ℕ) (priv : ℕ) (pub : Point) :
    Option ℕ :=
  if validScalar priv then some (hashPoint (priv • pub)) else none

/-- deriveStealthPublicKey from crypto/stealth.ts:
stealthPub = spendPub + sharedSecret * G.  The base point multiplication
throws for a shared-secret scalar that is zero or at least the group
order. -/
def deriveStealthPublicKey (g : Point) (spendingPublicKey : Point)
    (sharedSecret : ℕ) : Option Point :=
  if validScalar sharedSecret then
    some (spendingPublicKey + sharedSecret • g)
  else none

/-- generateViewTag from crypto/ecdh.ts: the first byte of the 32-byte
shared secret, here the most significant byte of the digest value. -/
def generateViewTag (sharedSecret : ℕ) : ℕ :=
  sharedSecret / 2 ^ 248

/-- generateStealthAddress from crypto/stealth.ts (sender side).  The
ephemeral private key is the randomness consumed by the internal
generateKeypair call; addrOf is the address derivation
publicKeyToAddress (keccak of the uncompressed point without its prefix
byte, last 20 bytes).  Only scheme 1 is supported. -/
def generateStealthAddress (g : Point) (hashPoint addrOf : Point → ℕ)
    (ephemeralPriv : ℕ) (meta : MetaAddress Point) (schemeId : ℕ) :
    Option (StealthInfo Point) :=
  if schemeId ≠ 1 then none
  else
    match computeSharedSecret hashPoint ephemeralPriv meta.viewingPublicKey with
    | none => none
    | some sharedSecret =>
      match deriveStealthPublicKey g meta.spendingPublicKey sharedSecret with
      | none => none
      | some stealthPublicKey =>
        some { stealthAddress := addrOf stealthPublicKey
               ephemeralPublicKey := ephemeralPriv • g
               viewTag := generateViewTag sharedSecret }

/-- computeStealthPrivateKey from crypto/stealth.ts (recipient side):
shared secret by ECDH of the viewing private key with the ephemeral
public key, then stealthPriv = (spendingPriv + sharedSecret) mod n. -/
def computeStealthPrivateKey (hashPoint : Point → ℕ)
    (viewingPriv spendingPriv : ℕ) (ephemeralPub : Point) : Option ℕ :=
  match computeSharedSecret hashPoint viewingPriv ephemeralPub with
  | none => none
  | some sharedSecret => some ((spendingPriv + sharedSecret) % secpN)

/-- checkStealthAddress from crypto/stealth.ts: derive the public key
from the stealth private key (throws for an invalid scalar), derive its
address and compare with the expected address case-insensitively. -/
def checkStealthAddress (g : Point) (addrOf : Point → ℕ)
    (stealthPriv expectedAddress : ℕ) : Option Bool :=
  if validScalar stealthPriv then
    some (addrOf (stealthPriv • g) == expectedAddress)
  else none

end Stealth

/-- DepositNote as produced by generateDepositNote in indexer/client.ts. -/
structure DepositNote where
  secret : ℕ
  nullifier : ℕ
  commitment : ℕ
  nullifierHash : ℕ
  amount : ℕ
deriving DecidableEq

/-- computeCommitment from indexer/client.ts: the circomlibjs Poseidon
hash of [secret, nullifier, amount]; the Poseidon permutation is the
parameter poseidon3. -/
def computeCommitment (poseidon3 : ℕ → ℕ → ℕ → ℕ)
    (secret nullifier amount : ℕ) : ℕ :=
  poseidon3 secret nullifier amount

/-- computeNullifierHash from indexer/client.ts: the circomlibjs Poseidon
hash of [nullifier]. -/
def computeNullifierHash (poseidon1 : ℕ → ℕ) (nullifier : ℕ) : ℕ :=
  poseidon1 nullifier

/-- generateDepositNote from indexer/client.ts; the sampled random field
elements secret and nullifier are the randomness parameters. -/
def generateDepositNote (poseidon3 : ℕ → ℕ → ℕ → ℕ) (poseidon1 : ℕ → ℕ)
    (secret nullifier amount : ℕ) : DepositNote :=
  { secret := secret
    nullifier := nullifier
    commitment := computeCommitment poseidon3 secret nullifier amount
    nullifierHash := computeNullifierHash poseidon1 nullifier
    amount := amount }

/-! ### Incremental Merkle tree

The on-chain tree (contracts/src/libraries/MerkleTree.sol) and its
off-chain replica (the Poseidon MerkleTreeBuilder iteration of the
indexer).  Both use the same node hash; it is the parameter H. -/

/-- TREE_DEPTH, identical in MerkleTree.sol and the replica. -/
def TREE_DEPTH : ℕ := 20

/-- MAX_LEAVES = 2 ^ TREE_DEPTH, identical in both implementations. -/
def MAX_LEAVES : ℕ := 2 ^ TREE_DEPTH

/-- Tower of zero-subtree hashes: level 0 is the zero leaf value 0 and
each next level hashes the previous one with itself, as computed by the
contract constructor loop and by initializeZeroHashes in the replica. -/
def zeroHash (H : ℕ → ℕ → ℕ) : ℕ → ℕ
  | 0 => 0
  | i + 1 =>
    let z := zeroHash H i
    H z z

/-- The per-leaf level walk of MerkleTree.insert in MerkleTree.sol: the
list is filledSubtrees for the levels still to visit (head = current
level), idx the node index at the current level, cur the running hash.
At an even index the node is hashed as (left := cur, right := the stored
filled subtree read before the slot is overwritten with cur); at an odd
index as (left := stored filled subtree, right := cur) with no
overwrite.  Returns the updated filled subtrees and the new root. -/
def contractLevels (H : ℕ → ℕ → ℕ) : List ℕ → ℕ → ℕ → List ℕ × ℕ
  | [], _, cur => ([], cur)
  | f :: fs, idx, cur =>
    if idx % 2 = 0 then
      let right := f
      let out := contractLevels H fs (idx / 2) (H cur right)
      (cur :: out.1, out.2)
    else
      let left := f
      let out := contractLevels H fs (idx / 2) (H left cur)
      (left :: out.1, out.2)

/-- The inner level loop shared by getCurrentRoot and getMerklePath of
the replica MerkleTreeBuilder: even index reads the filled subtree as
the right sibling before overwriting the slot with the current hash, odd
index pairs with the stored filled subtree as left sibling. -/
def replicaLevels (H : ℕ → ℕ → ℕ) : List ℕ → ℕ → ℕ → List ℕ × ℕ
  | [], _, currentHash => ([], currentHash)
  | f :: fs, currentIndex, currentHash =>
    if currentIndex % 2 = 0 then
      let right := f
      let out := replicaLevels H fs (currentIndex / 2) (H currentHash right)
      (currentHash :: out.1, out.2)
    else
      let out := replicaLevels H fs (currentIndex / 2) (H f currentHash)
      (f :: out.1, out.2)

/-- On-chain tree storage (MerkleTree.Tree): roots is the full history
mapping, currentRootIndex is roots.length - 1. -/
structure TreeState where
  nextLeafIndex : ℕ
  filledSubtrees : List ℕ
  roots : List ℕ
deriving DecidableEq

/-- MerkleTree initialization with zeroValue = 0 (the ShieldedPool
constructor): filledSubtrees[i] is the level-i zero hash and roots[0]
the empty-tree root. -/
def initTree (H : ℕ → ℕ → ℕ) : TreeState :=
  { nextLeafIndex := 0
    filledSubtrees := (List.range TREE_DEPTH).map (zeroHash H)
    roots := [zeroHash H TREE_DEPTH] }

/-- MerkleTree.insert: reverts when the tree is full, otherwise walks
the levels, appends the new root to the history and increments
nextLeafIndex. -/
def insertLeaf (H : ℕ → ℕ → ℕ) (t : TreeState) (leaf : ℕ) :
    Option TreeState :=
  if t.nextLeafIndex < MAX_LEAVES then
    let out := contractLevels H t.filledSubtrees t.nextLeafIndex leaf
    some { nextLeafIndex := t.nextLeafIndex + 1
           filledSubtrees := out.1
           roots := t.roots ++ [out.2] }
  else none

/-- Sequence of MerkleTree.insert calls, one per leaf. -/
def insertAll (H : ℕ → ℕ → ℕ) : TreeState → List ℕ → Option TreeState
  | t, [] => some t
  | t, leaf :: ls =>
    match insertLeaf H t leaf with
    | none => none
    | some t2 => insertAll H t2 ls

/-- MerkleTree.getRoot: roots[currentRootIndex], the last stored root. -/
def getRoot (t : TreeState) : ℕ :=
  t.roots.getLastD 0

/-- MerkleTree.isKnownRoot: zero is never known; otherwise the loop
checks roots[i] for i from currentRootIndex down to
minIndex = currentRootIndex - 100 (or 0), a window of the last 101
stored roots.  The downward loop is rendered as a bounded search over
the same index set. -/
def isKnownRoot (t : TreeState) (root : ℕ) : Bool :=
  if root = 0 then false
  else
    let currentIndex := t.roots.length - 1
    let minIndex := if 100 < currentIndex then currentIndex - 100 else 0
    (List.range (currentIndex + 1)).any fun i =>
      decide (minIndex ≤ i) && (t.roots.getD i 0 == root)

/-- Replay loop of the replica getCurrentRoot: fold the per-leaf level
walk over all leaves starting from the zero filled subtrees, keeping the
last root. -/
def replicaReplay (H : ℕ → ℕ → ℕ) :
    List ℕ → ℕ → ℕ → List ℕ → List ℕ × ℕ
  | fs, _, root, [] => (fs, root)
  | fs, leafIdx, _, leaf :: ls =>
    let out := replicaLevels H fs leafIdx leaf
    replicaReplay H out.1 (leafIdx + 1) out.2 ls

/-- MerkleTreeBuilder.getCurrentRoot: the zero-tree root when no leaf
was inserted, otherwise the root left by replaying every insertion. -/
def getCurrentRoot (H : ℕ → ℕ → ℕ) (leaves : List ℕ) : ℕ :=
  if leaves.isEmpty then zeroHash H TREE_DEPTH
  else
    (replicaReplay H ((List.range TREE_DEPTH).map (zeroHash H)) 0
      (zeroHash H TREE_DEPTH) leaves).2

/-- The filledSubtreesHistory collected by getMerklePath: entry i is the
filled-subtrees state immediately before leaf i was inserted. -/
def fsHistory (H : ℕ → ℕ → ℕ) : List ℕ → ℕ → List ℕ → List (List ℕ)
  | _, _, [] => []
  | fs, leafIdx, leaf :: ls =>
    fs :: fsHistory H (replicaLevels H fs leafIdx leaf).1 (leafIdx + 1) ls

/-- MerklePath returned by MerkleTreeBuilder.getMerklePath. -/
structure MerklePath where
  pathElements : List ℕ
  pathIndices : List ℕ
  root : ℕ
  leaf : ℕ
  leafIndex : ℕ
deriving DecidableEq

/-- MerkleTreeBuilder.getMerklePath for the leaf at targetLeafIndex (the
database lookup commitment -> leafIndex is abstracted into the index
argument; indices beyond the inserted leaves give null).  The path
element at each level is the filled-subtree snapshot from before the
target leaf's own insertion; the direction bit at level l is the parity
of the node index there; the root field is getCurrentRoot over all the
leaves. -/
def getMerklePath (H : ℕ → ℕ → ℕ) (leaves : List ℕ)
    (targetLeafIndex : ℕ) : Option MerklePath :=
  if targetLeafIndex < leaves.length then
    let hist :=
      fsHistory H ((List.range TREE_DEPTH).map (zeroHash H)) 0 leaves
    some { pathElements := hist.getD targetLeafIndex []
           pathIndices := (List.range TREE_DEPTH).map fun level =>
             if (targetLeafIndex / 2 ^ level) % 2 = 0 then 0 else 1
           root := getCurrentRoot H leaves
           leaf := leaves.getD targetLeafIndex 0
           leafIndex := targetLeafIndex }
  else none

/-- The Merkle verification predicate (the fold computed by the
merkle-proof circuit): hash the current node with each path element,
direction bit 0 meaning the current node is the left child. -/
def merkleFold (H : ℕ → ℕ → ℕ) : ℕ → List ℕ → List ℕ → ℕ
  | cur, [], _ => cur
  | cur, _ :: _, [] => cur
  | cur, e :: es, i :: is =>
    merkleFold H (if i = 0 then H cur e else H e cur) es is

/-- Concrete stand-in node hash used to evaluate the tree code on
explicit inputs (the real node hash, Poseidon, is opaque here). -/
def hashC4 (l r : ℕ) : ℕ := (2 * l + 3 * r + 1) % 1000003

/-- Concrete additive stand-in node hash used for root-history
evaluations. -/
def hashC6 (l r : ℕ) : ℕ := l + r + 1

/-- Contract tree state after inserting the given leaves in order into a
freshly initialized tree. -/
def treeAfter (H : ℕ → ℕ → ℕ) (leaves : List ℕ) : TreeState :=
  (insertAll H (initTree H) leaves).getD (initTree H)

/-! ### ShieldedPool contract -/

/-- Errors of ShieldedPool.sol (including the tree-is-full require of
MerkleTree.insert). -/
inductive PoolError where
  | InvalidDenomination
  | InvalidAmount
  | NullifierAlreadyUsed
  | InvalidMerkleRoot
  | InvalidProof
  | TransferFailed
  | ZeroAddress
  | TreeFull
deriving DecidableEq

/-- ShieldedPool storage: the tree, the used-nullifier mapping (as the
list of hashes set to true) and the supported-denomination mapping (as
the list of amounts set to true).  Addresses and field values are
naturals; address 0 is the zero address. -/
structure PoolState where
  tree : TreeState
  nullifiers : List ℕ
  denominations : List ℕ
deriving DecidableEq

/-- ShieldedPool.deposit: requires a supported denomination and
msg.value equal to the amount, then inserts the commitment; returns the
assigned leaf index. -/
def poolDeposit (H : ℕ → ℕ → ℕ) (s : PoolState)
    (commitment amount msgValue : ℕ) : Except PoolError (PoolState × ℕ) :=
  if ¬ s.denominations.contains amount then .error .InvalidDenomination
  else if msgValue ≠ amount then .error .InvalidAmount
  else
    match insertLeaf H s.tree commitment with
    | none => .error .TreeFull
    | some t2 => .ok ({ s with tree := t2 }, s.tree.nextLeafIndex)

/-- ShieldedPool.withdraw.  The external Groth16 verifier call is the
parameter verifier (applied to the proof and the public signals in
contract order) and the low-level value transfer outcome is transferOk.
An error models a revert, so the state is unchanged on every error; in
particular the nullifier write that the contract performs before a
failing transfer is rolled back by the revert. -/
def poolWithdraw (verifier : List ℕ → ℕ → ℕ → ℕ → ℕ → Bool)
    (transferOk : Bool) (s : PoolState) (proof : List ℕ)
    (root nullifierHash recipient amount : ℕ) :
    Except PoolError PoolState :=
  if ¬ s.denominations.contains amount then .error .InvalidDenomination
  else if ¬ isKnownRoot s.tree root then .error .InvalidMerkleRoot
  else if s.nullifiers.contains nullifierHash then .error .NullifierAlreadyUsed
  else if recipient = 0 then .error .ZeroAddress
  else if ¬ verifier proof root nullifierHash recipient amount then
    .error .InvalidProof
  else if ¬ transferOk then .error .TransferFailed
  else .ok { s with nullifiers := s.nullifiers ++ [nullifierHash] }

/-- A transaction against the pool; a reverted transaction leaves the
state unchanged. -/
inductive PoolOp where
  | deposit (commitment amount msgValue : ℕ)
  | withdraw (verifier : List ℕ → ℕ → ℕ → ℕ → ℕ → Bool) (transferOk : Bool)
      (proof : List ℕ) (root nullifierHash recipient amount : ℕ)

/-- Apply one transaction: reverts (errors) leave the state unchanged. -/
def applyOp (H : ℕ → ℕ → ℕ) (s : PoolState) : PoolOp → PoolState
  | .deposit commitment amount msgValue =>
    match poolDeposit H s commitment amount msgValue with
    | .ok out => out.1
    | .error _ => s
  | .withdraw verifier transferOk proof root nullifierHash recipient amount =>
    match poolWithdraw verifier transferOk s proof root nullifierHash
        recipient amount with
    | .ok s2 => s2
    | .error _ => s

/-- Apply a sequence of transactions. -/
def applyOps (H : ℕ → ℕ → ℕ) (s : PoolState) : List PoolOp → PoolState
  | [] => s
  | op :: ops => applyOps H (applyOp H s op) ops

/-! ### Chain event ingestor -/

/-- The (transactionHash, logIndex) unique key of every indexed event. -/
structure EventKey where
  transactionHash : ℕ
  logIndex : ℕ
deriving DecidableEq

/-- Stored Announcement row. -/
structure AnnouncementRec where
  blockNumber : ℕ
  schemeId : ℕ
  stealthAddress : ℕ
  caller : ℕ
  ephemeralPubKey : ℕ
  metadata : ℕ
deriving DecidableEq

/-- Stored Deposit row. -/
structure DepositRec where
  blockNumber : ℕ
  commitment : ℕ
  leafIndex : ℕ
  amount : ℕ
  depositor : ℕ
deriving DecidableEq

/-- Stored Withdrawal row. -/
structure WithdrawalRec where
  blockNumber : ℕ
  nullifierHash : ℕ
  recipient : ℕ
  amount : ℕ
deriving DecidableEq

/-- Whether a row with the given key is already stored. -/
def hasKey {α : Type} (rows : List (EventKey × α)) (k : EventKey) : Bool :=
  rows.any fun row => row.1 == k

/-- The prisma upsert with an empty update clause used by all three scan
loops: a row whose (transactionHash, logIndex) key is already present is
left exactly as stored; otherwise the new row is created. -/
def upsertRow {α : Type} (rows : List (EventKey × α)) (k : EventKey)
    (v : α) : List (EventKey × α) :=
  if hasKey rows k then rows else rows ++ [(k, v)]

/-- Upsert every event of a scanned range, in log order. -/
def upsertAll {α : Type} (rows : List (EventKey × α)) :
    List (EventKey × α) → List (EventKey × α)
  | [] => rows
  | (k, v) :: evs => upsertAll (upsertRow rows k v) evs

/-- The chained logs visible over RPC: each entry carries its block
number, its key and the decoded record. -/
structure Chain where
  currentBlock : ℕ
  announcementLogs : List (ℕ × EventKey × AnnouncementRec)
  depositLogs : List (ℕ × EventKey × DepositRec)
  withdrawalLogs : List (ℕ × EventKey × WithdrawalRec)
deriving DecidableEq

/-- getLogs filtered to the inclusive block range [fromBlock, toBlock]. -/
def logsInRange {α : Type} (logs : List (ℕ × EventKey × α))
    (fromBlock toBlock : ℕ) : List (EventKey × α) :=
  (logs.filter fun log =>
    decide (fromBlock ≤ log.1) && decide (log.1 ≤ toBlock)).map
    fun log => log.2

/-- Scanner database: the durable cursor and the three event tables. -/
structure ScannerDB where
  lastBlockScanned : ℕ
  announcements : List (EventKey × AnnouncementRec)
  deposits : List (EventKey × DepositRec)
  withdrawals : List (EventKey × WithdrawalRec)
deriving DecidableEq

/-- Point at which a scan tick throws: during one of the three scan
loops after some number of events were already upserted, or at the final
cursor write. -/
inductive ScanFailure where
  | announcementScan (k : ℕ)
  | depositScan (k : ℕ)
  | withdrawalScan (k : ℕ)
  | cursorWrite
deriving DecidableEq

/-- One scanEvents tick of EventScanner.  The block range is
[lastBlockScanned + 1, min (fromBlock + blocksPerScan) currentBlock]; a
fully synced scanner returns unchanged.  The three streams are scanned
in order and the cursor is written last; failAt injects the throw that
the surrounding try/catch swallows, leaving whatever was already
committed (event upserts are individually durable) but never the cursor
update. -/
def scanTick (chain : Chain) (blocksPerScan : ℕ)
    (failAt : Option ScanFailure) (db : ScannerDB) : ScannerDB :=
  let fromBlock := db.lastBlockScanned + 1
  let toBlock :=
    if chain.currentBlock < fromBlock + blocksPerScan then chain.currentBlock
    else fromBlock + blocksPerScan
  if chain.currentBlock < fromBlock then db
  else
    let annEvents := logsInRange chain.announcementLogs fromBlock toBlock
    let depEvents := logsInRange chain.depositLogs fromBlock toBlock
    let wdEvents := logsInRange chain.withdrawalLogs fromBlock toBlock
    match failAt with
    | some (.announcementScan k) =>
      { db with
          announcements := upsertAll db.announcements (annEvents.take k) }
    | some (.depositScan k) =>
      { db with
          announcements := upsertAll db.announcements annEvents
          deposits := upsertAll db.deposits (depEvents.take k) }
    | some (.withdrawalScan k) =>
      { db with
          announcements := upsertAll db.announcements annEvents
          deposits := upsertAll db.deposits depEvents
          withdrawals := upsertAll db.withdrawals (wdEvents.take k) }
    | some .cursorWrite =>
      { db with
          announcements := upsertAll db.announcements annEvents
          deposits := upsertAll db.deposits depEvents
          withdrawals := upsertAll db.withdrawals wdEvents }
    | none =>
      { lastBlockScanned := toBlock
        announcements := upsertAll db.announcements annEvents
        deposits := upsertAll db.deposits depEvents
        withdrawals := upsertAll db.withdrawals wdEvents }

/-! ### Concrete instances used for evaluation -/

/-- Concrete pool state used to evaluate the withdraw entrypoint on
explicit inputs. -/
def poolC10 : PoolState :=
  { tree := { nextLeafIndex := 0, filledSubtrees := [], roots := [5] }
    nullifiers := []
    denominations := [100] }

/-- Verifier oracle that accepts every proof, for concrete runs. -/
def verifierTrue : List ℕ → ℕ → ℕ → ℕ → ℕ → Bool := fun _ _ _ _ _ => true

/-- Concrete pool over the additive stand-in hash: empty tree, no spent
nullifiers, denomination 100 supported. -/
def poolW : PoolState :=
  { tree := initTree hashC6, nullifiers := [], denominations := [100] }

/-- poolW after a successful withdraw consuming nullifier hash 7. -/
def poolW1 : PoolState :=
  { tree := initTree hashC6, nullifiers := [7], denominations := [100] }

/-- Concrete transaction batch: one further deposit. -/
def opsW : List PoolOp := [PoolOp.deposit 42 100 100]

/-- Concrete announcement row for scanner evaluations. -/
def annRecW : AnnouncementRec :=
  { blockNumber := 1, schemeId := 1, stealthAddress := 2, caller := 3
    ephemeralPubKey := 4, metadata := 5 }

/-- Concrete chain with a single announcement log in block 1. -/
def chainW : Chain :=
  { currentBlock := 5
    announcementLogs := [(1, { transactionHash := 1, logIndex := 0 }, annRecW)]
    depositLogs := []
    withdrawalLogs := [] }

deriving instance DecidableEq for Except

/-! ### Theorems -/

/-- A generator annihilated by the secp256k1 group order absorbs
reduction of scalar multiples mod that order. -/
theorem nsmul_mod_order {Point : Type} [AddCommGroup Point] (g : Point)
    (h : secpN • g = 0) (m : ℕ) : (m % secpN) • g = m • g := by
  conv_rhs => rw [← Nat.div_add_mod m secpN]
  rw [add_nsmul, mul_nsmul, h, smul_zero, zero_add]

/-- C7: computeNullifierHash depends on the nullifier alone — deposit
notes generated with the same nullifier but different secrets and
amounts carry the same nullifierHash — and the hash helpers are pure:
repeated calls with the same inputs give the same outputs. -/
theorem nullifierHash_amount_independent
    (poseidon3 : ℕ → ℕ → ℕ → ℕ) (poseidon1 : ℕ → ℕ)
    (secret secret2 nullifier amount amount2 : ℕ) :
    (generateDepositNote poseidon3 poseidon1 secret nullifier
        amount).nullifierHash
      = (generateDepositNote poseidon3 poseidon1 secret2 nullifier
        amount2).nullifierHash
    ∧ computeCommitment poseidon3 secret nullifier amount
        = computeCommitment poseidon3 secret nullifier amount
    ∧ computeNullifierHash poseidon1 nullifier
        = computeNullifierHash poseidon1 nullifier :=
  ⟨rfl, rfl, rfl⟩

/-- C9: every keypair generateKeypair returns carries a private key that
is a nonzero scalar strictly below the curve order, and entropy that is
zero or at least the order is rejected (the noble point derivation
throws, no keypair is returned). -/
theorem generateKeypair_valid {Point : Type} [AddCommGroup Point]
    (g : Point) (entropy badEntropy : ℕ) (kp : Keypair Point)
    (hok : generateKeypair g entropy = some kp)
    (hbad : badEntropy = 0 ∨ secpN ≤ badEntropy) :
    (0 < kp.privateKey ∧ kp.privateKey < secpN)
      ∧ generateKeypair g badEntropy = none := by
  constructor
  · unfold generateKeypair at hok
    by_cases h : validScalar entropy = true
    · rw [if_pos h] at hok
      cases hok
      simpa [validScalar] using h
    · rw [if_neg h] at hok
      cases hok
  · have hno : ¬ validScalar badEntropy = true := by
      simp only [validScalar, decide_eq_true_eq]
      rcases hbad with h | h <;> omega
    unfold generateKeypair
    rw [if_neg hno]

/-- C9 witness: entropy 5 yields the keypair with private key 5 over the
integers as stand-in curve group, and entropy 0 is rejected. -/
theorem generateKeypair_valid_witness :
    generateKeypair (1 : ℤ) 5 = some { privateKey := 5, publicKey := 5 }
    ∧ ((0 : ℕ) = 0 ∨ secpN ≤ 0)
    ∧ ((0 < (5 : ℕ) ∧ (5 : ℕ) < secpN) ∧ generateKeypair (1 : ℤ) 0 = none) :=
  ⟨by decide, Or.inl rfl,
    generateKeypair_valid (1 : ℤ) 5 0 { privateKey := 5, publicKey := 5 }
      (by decide) (Or.inl rfl)⟩

/-- C4 (divergence evidence): in a 5-leaf tree with an explicit stand-in
node hash, getMerklePath at leafIndex 3 returns a path, but folding the
leaf through pathElements/pathIndices does not yield the returned root:
it yields the root as of the state right after the 4th insertion (the
pre-insertion filled-subtree snapshots), while the root field is the
root after all 5 insertions. -/
theorem getMerklePath_root_divergence :
    ((getMerklePath hashC4 [1, 2, 3, 4, 5] 3).map fun p =>
        decide (merkleFold hashC4 p.leaf p.pathElements p.pathIndices
          = p.root))
      = some false
    ∧ ((getMerklePath hashC4 [1, 2, 3, 4, 5] 3).map fun p =>
        merkleFold hashC4 p.leaf p.pathElements p.pathIndices)
      = some (getCurrentRoot hashC4 [1, 2, 3, 4]) :=
  ⟨by decide, by decide⟩

/-- C10 counterexample: a withdraw with root 0 does not always revert
with InvalidMerkleRoot — with an unsupported amount the denomination
check fires first and the call reverts with InvalidDenomination. -/
theorem withdraw_zero_root_counterexample :
    poolWithdraw verifierTrue true poolC10 [] 0 7 9 3
        = .error .InvalidDenomination
    ∧ poolWithdraw verifierTrue true poolC10 [] 0 7 9 3
        ≠ .error .InvalidMerkleRoot := by
  have h1 : poolWithdraw verifierTrue true poolC10 [] 0 7 9 3
      = .error .InvalidDenomination := rfl
  refine ⟨h1, fun h => ?_⟩
  rw [h1] at h
  exact absurd (Except.error.inj h) (by decide)

/-- C10 amended: isKnownRoot rejects root 0 in every tree state, and a
withdraw carrying root 0 with a supported denomination amount reverts
with InvalidMerkleRoot for every verifier and proof (the nullifier,
recipient, proof and transfer steps are never reached). -/
theorem withdraw_zero_root_amended (t : TreeState)
    (verifier : List ℕ → ℕ → ℕ → ℕ → ℕ → Bool) (transferOk : Bool)
    (s : PoolState) (proof : List ℕ) (nullifierHash recipient amount : ℕ)
    (hden : s.denominations.contains amount = true) :
    isKnownRoot t 0 = false
    ∧ poolWithdraw verifier transferOk s proof 0 nullifierHash recipient
        amount = .error .InvalidMerkleRoot := by
  have hz : ∀ u : TreeState, isKnownRoot u 0 = false := by
    intro u
    unfold isKnownRoot
    rw [if_pos rfl]
  refine ⟨hz t, ?_⟩
  unfold poolWithdraw
  rw [if_neg (not_not_intro hden), if_pos (by simp [hz])]

/-- C10 amended witness at a concrete pool with denomination 100. -/
theorem withdraw_zero_root_amended_witness :
    poolC10.denominations.contains 100 = true
    ∧ (isKnownRoot poolC10.tree 0 = false
      ∧ poolWithdraw verifierTrue true poolC10 [] 0 7 9 100
          = .error .InvalidMerkleRoot) :=
  ⟨by decide,
    withdraw_zero_root_amended poolC10.tree verifierTrue true poolC10 [] 7 9
      100 (by decide)⟩

/-- The scalar residues mod secpN form a group of exponent secpN; its
unit serves as a stand-in generator for concrete runs. -/
theorem secpN_smul_one_zmod : secpN • (1 : ZMod secpN) = 0 := by
  rw [nsmul_eq_mul, mul_one, ZMod.natCast_self]

/-- C1: stealth round-trip.  For valid keypairs (public keys are the
scalar multiples of the generator) over any curve group whose generator
is annihilated by the secp256k1 order, whenever the sender-side
generateStealthAddress succeeds and the recipient-side
computeStealthPrivateKey yields a (nonzero) stealth private key,
checkStealthAddress accepts that private key against the generated
stealth address. -/
theorem stealth_round_trip {Point : Type} [AddCommGroup Point]
    (g : Point) (hashPoint addrOf : Point → ℕ)
    (hOrder : secpN • g = 0)
    (viewingPriv spendingPriv ephemeralPriv : ℕ)
    (info : StealthInfo Point) (stealthPriv : ℕ)
    (hGen : generateStealthAddress g hashPoint addrOf ephemeralPriv
        { viewingPublicKey := viewingPriv • g
          spendingPublicKey := spendingPriv • g } 1 = some info)
    (hPriv : computeStealthPrivateKey hashPoint viewingPriv spendingPriv
        (ephemeralPriv • g) = some stealthPriv)
    (hNz : stealthPriv ≠ 0) :
    checkStealthAddress g addrOf stealthPriv info.stealthAddress
      = some true := by
  have hNpos : 0 < secpN := by norm_num [secpN]
  -- unpack the recipient side
  unfold computeStealthPrivateKey computeSharedSecret at hPriv
  by_cases hv : validScalar viewingPriv = true
  case neg => rw [if_neg hv] at hPriv; cases hPriv
  rw [if_pos hv] at hPriv
  have hsp : stealthPriv
      = (spendingPriv + hashPoint (viewingPriv • ephemeralPriv • g)) % secpN :=
    (Option.some.inj hPriv).symm
  -- unpack the sender side
  unfold generateStealthAddress computeSharedSecret
    deriveStealthPublicKey at hGen
  rw [if_neg (by simp)] at hGen
  by_cases hve : validScalar ephemeralPriv = true
  case neg => rw [if_neg hve] at hGen; cases hGen
  rw [if_pos hve] at hGen
  dsimp only at hGen
  by_cases hvs : validScalar (hashPoint (ephemeralPriv • viewingPriv • g))
      = true
  case neg => rw [if_neg hvs] at hGen; cases hGen
  rw [if_pos hvs] at hGen
  dsimp only at hGen
  have hinfo : info.stealthAddress
      = addrOf
          (spendingPriv • g
            + hashPoint (ephemeralPriv • viewingPriv • g) • g) := by
    rw [← Option.some.inj hGen]
  -- ECDH commutativity
  have hswap : viewingPriv • ephemeralPriv • g
      = ephemeralPriv • viewingPriv • g := by
    rw [smul_smul, smul_smul, Nat.mul_comm]
  -- validity of the derived private key
  have hlt : stealthPriv < secpN := by
    rw [hsp]; exact Nat.mod_lt _ hNpos
  have hvp : validScalar stealthPriv = true := by
    simp only [validScalar, decide_eq_true_eq]
    exact ⟨Nat.pos_of_ne_zero hNz, hlt⟩
  -- the derived key generates the stealth public key
  have hkey : stealthPriv • g
      = spendingPriv • g + hashPoint (ephemeralPriv • viewingPriv • g) • g := by
    rw [hsp, hswap, nsmul_mod_order g hOrder, add_nsmul]
  unfold checkStealthAddress
  rw [if_pos hvp, hinfo, hkey]
  simp

/-- C1 witness: over the residue group mod secpN with generator 1 and
the residue value as digest and address function, viewing, spending and
ephemeral private keys all 1 give a successful round trip: the sender
derives stealth address 2, the recipient derives stealth private key 2,
and the check accepts. -/
theorem stealth_round_trip_witness :
    generateStealthAddress (1 : ZMod secpN) (fun p => p.val) (fun p => p.val)
        1
        { viewingPublicKey := (1 : ℕ) • (1 : ZMod secpN)
          spendingPublicKey := (1 : ℕ) • (1 : ZMod secpN) } 1
      = some { stealthAddress := 2
               ephemeralPublicKey := (1 : ℕ) • (1 : ZMod secpN)
               viewTag := 0 }
    ∧ computeStealthPrivateKey (fun p : ZMod secpN => p.val) 1 1
        ((1 : ℕ) • (1 : ZMod secpN)) = some 2
    ∧ (2 : ℕ) ≠ 0
    ∧ checkStealthAddress (1 : ZMod secpN) (fun p => p.val) 2
        ({ stealthAddress := 2
           ephemeralPublicKey := (1 : ℕ) • (1 : ZMod secpN)
           viewTag := 0 } : StealthInfo (ZMod secpN)).stealthAddress
      = some true :=
  ⟨by decide, by decide, by decide,
    stealth_round_trip (1 : ZMod secpN) (fun p => p.val) (fun p => p.val)
      secpN_smul_one_zmod 1 1 1
      { stealthAddress := 2
        ephemeralPublicKey := (1 : ℕ) • (1 : ZMod secpN)
        viewTag := 0 } 2 (by decide) (by decide) (by decide)⟩

/-- A successful withdraw appends its nullifier hash to the used set and
changes nothing else outside the tree. -/
theorem poolWithdraw_ok_nullifiers
    (verifier : List ℕ → ℕ → ℕ → ℕ → ℕ → Bool) (transferOk : Bool)
    (s : PoolState) (proof : List ℕ) (root nullifierHash recipient amount : ℕ)
    (s2 : PoolState)
    (h : poolWithdraw verifier transferOk s proof root nullifierHash
        recipient amount = .ok s2) :
    s2.nullifiers = s.nullifiers ++ [nullifierHash] := by
  unfold poolWithdraw at h
  split at h
  · cases h
  · split at h
    · cases h
    · split at h
      · cases h
      · split at h
        · cases h
        · split at h
          · cases h
          · split at h
            · cases h
            · cases h
              rfl

/-- A successful deposit leaves the nullifier set unchanged. -/
theorem poolDeposit_ok_nullifiers (H : ℕ → ℕ → ℕ) (s : PoolState)
    (commitment amount msgValue : ℕ) (out : PoolState × ℕ)
    (h : poolDeposit H s commitment amount msgValue = .ok out) :
    out.1.nullifiers = s.nullifiers := by
  unfold poolDeposit at h
  split at h
  · cases h
  · split at h
    · cases h
    · split at h
      · cases h
      · cases h
        rfl

/-- Membership in the contains sense survives appending. -/
theorem contains_append_right (l : List ℕ) (x y : ℕ)
    (h : l.contains x = true) : (l ++ [y]).contains x = true := by
  simp only [List.contains, List.elem_eq_mem, decide_eq_true_eq] at h ⊢
  exact List.mem_append_left _ h

/-- Every pool transaction preserves a recorded nullifier: reverts leave
the state unchanged, a deposit touches only the tree, and a successful
withdraw only appends. -/
theorem applyOp_preserves_nullifier (H : ℕ → ℕ → ℕ) (s : PoolState)
    (op : PoolOp) (nh : ℕ) (hmem : s.nullifiers.contains nh = true) :
    (applyOp H s op).nullifiers.contains nh = true := by
  cases op with
  | deposit commitment amount msgValue =>
    unfold applyOp
    dsimp only
    cases hres : poolDeposit H s commitment amount msgValue with
    | error e => exact hmem
    | ok out =>
      rw [poolDeposit_ok_nullifiers H s commitment amount msgValue out hres]
      exact hmem
  | withdraw verifier transferOk proof root nullifierHash recipient amount =>
    unfold applyOp
    dsimp only
    cases hres : poolWithdraw verifier transferOk s proof root nullifierHash
        recipient amount with
    | error e => exact hmem
    | ok s2 =>
      rw [poolWithdraw_ok_nullifiers verifier transferOk s proof root
        nullifierHash recipient amount s2 hres]
      exact contains_append_right _ _ _ hmem

/-- A recorded nullifier survives any sequence of pool transactions. -/
theorem applyOps_preserves_nullifier (H : ℕ → ℕ → ℕ) (ops : List PoolOp) :
    ∀ (s : PoolState) (nh : ℕ), s.nullifiers.contains nh = true →
      (applyOps H s ops).nullifiers.contains nh = true := by
  induction ops with
  | nil => intro s nh hmem; exact hmem
  | cons op ops ih =>
    intro s nh hmem
    exact ih _ _ (applyOp_preserves_nullifier H s op nh hmem)

/-- C5: double-spend rejection.  Once a withdraw with nullifier hash nh
succeeds, the resulting state records nh; the record survives every
later sequence of transactions; and any later withdraw carrying nh —
even with a passing verifier, a known root and a supported denomination —
reverts with NullifierAlreadyUsed. -/
theorem double_spend_rejection (H : ℕ → ℕ → ℕ)
    (verifier : List ℕ → ℕ → ℕ → ℕ → ℕ → Bool) (transferOk : Bool)
    (s : PoolState) (proof : List ℕ) (root nh recipient amount : ℕ)
    (s1 : PoolState) (ops : List PoolOp)
    (verifier2 : List ℕ → ℕ → ℕ → ℕ → ℕ → Bool) (transferOk2 : Bool)
    (proof2 : List ℕ) (root2 recipient2 amount2 : ℕ)
    (hw : poolWithdraw verifier transferOk s proof root nh recipient amount
        = .ok s1)
    (hden : (applyOps H s1 ops).denominations.contains amount2 = true)
    (hroot : isKnownRoot (applyOps H s1 ops).tree root2 = true) :
    s1.nullifiers.contains nh = true
    ∧ (applyOps H s1 ops).nullifiers.contains nh = true
    ∧ poolWithdraw verifier2 transferOk2 (applyOps H s1 ops) proof2 root2 nh
        recipient2 amount2 = .error .NullifierAlreadyUsed := by
  have h1 : s1.nullifiers.contains nh = true := by
    rw [poolWithdraw_ok_nullifiers verifier transferOk s proof root nh
      recipient amount s1 hw]
    simp
  have h2 := applyOps_preserves_nullifier H ops s1 nh h1
  refine ⟨h1, h2, ?_⟩
  unfold poolWithdraw
  rw [if_neg (not_not_intro hden), if_neg (not_not_intro hroot), if_pos h2]

/-- C5 witness: a concrete withdraw of nullifier hash 7 against the
initial root succeeds, a further deposit happens, and the repeated
withdraw of hash 7 reverts with NullifierAlreadyUsed. -/
theorem double_spend_rejection_witness :
    poolWithdraw verifierTrue true poolW [] 1048575 7 9 100 = .ok poolW1
    ∧ (applyOps hashC6 poolW1 opsW).denominations.contains 100 = true
    ∧ isKnownRoot (applyOps hashC6 poolW1 opsW).tree 1048575 = true
    ∧ (poolW1.nullifiers.contains 7 = true
      ∧ (applyOps hashC6 poolW1 opsW).nullifiers.contains 7 = true
      ∧ poolWithdraw verifierTrue true (applyOps hashC6 poolW1 opsW) []
          1048575 7 9 100 = .error .NullifierAlreadyUsed) :=
  ⟨by decide, by decide, by decide,
    double_spend_rejection hashC6 verifierTrue true poolW [] 1048575 7 9 100
      poolW1 opsW verifierTrue true [] 1048575 9 100 (by decide) (by decide)
      (by decide)⟩

/-- Upserting a key that is already stored leaves the table unchanged. -/
theorem upsertRow_of_hasKey {α : Type} (rows : List (EventKey × α))
    (k : EventKey) (v : α) (h : hasKey rows k = true) :
    upsertRow rows k v = rows := by
  unfold upsertRow
  rw [if_pos h]

/-- After an upsert the key is stored. -/
theorem hasKey_upsertRow {α : Type} (rows : List (EventKey × α))
    (k : EventKey) (v : α) : hasKey (upsertRow rows k v) k = true := by
  unfold upsertRow
  by_cases h : hasKey rows k = true
  · rw [if_pos h]; exact h
  · rw [if_neg h]
    unfold hasKey
    simp [List.any_append]

/-- An upsert never removes a stored key. -/
theorem hasKey_upsertRow_mono {α : Type} (rows : List (EventKey × α))
    (k0 k : EventKey) (v : α) (h : hasKey rows k0 = true) :
    hasKey (upsertRow rows k v) k0 = true := by
  unfold upsertRow
  by_cases hk : hasKey rows k = true
  · rw [if_pos hk]; exact h
  · rw [if_neg hk]
    unfold hasKey at h ⊢
    simp [List.any_append, h]

/-- A batch of upserts never removes a stored key. -/
theorem hasKey_upsertAll_mono {α : Type} (evs : List (EventKey × α)) :
    ∀ (rows : List (EventKey × α)) (k0 : EventKey),
      hasKey rows k0 = true → hasKey (upsertAll rows evs) k0 = true := by
  induction evs with
  | nil => intro rows k0 h; exact h
  | cons e es ih =>
    intro rows k0 h
    obtain ⟨k, v⟩ := e
    exact ih _ _ (hasKey_upsertRow_mono rows k0 k v h)

/-- Replaying a batch over any partially committed prefix of itself
gives the same table as replaying it over the original table: the
upserts are idempotent, so a retried range leaves no trace of the
partial first attempt. -/
theorem upsertAll_take_absorb {α : Type} (evs : List (EventKey × α)) :
    ∀ (kcut : ℕ) (rows : List (EventKey × α)),
      upsertAll (upsertAll rows (evs.take kcut)) evs = upsertAll rows evs := by
  induction evs with
  | nil =>
    intro kcut rows
    rw [List.take_nil]
    rfl
  | cons e es ih =>
    intro kcut rows
    obtain ⟨k, v⟩ := e
    cases kcut with
    | zero => rfl
    | succ j =>
      show upsertAll
          (upsertRow (upsertAll (upsertRow rows k v) (es.take j)) k v) es
        = upsertAll (upsertRow rows k v) es
      rw [upsertRow_of_hasKey _ _ _
        (hasKey_upsertAll_mono _ _ _ (hasKey_upsertRow rows k v))]
      exact ih j (upsertRow rows k v)

/-- Fully replaying a batch twice is the same as replaying it once. -/
theorem upsertAll_absorb {α : Type} (evs : List (EventKey × α))
    (rows : List (EventKey × α)) :
    upsertAll (upsertAll rows evs) evs = upsertAll rows evs := by
  have h := upsertAll_take_absorb evs evs.length rows
  rwa [List.take_length] at h

/-- C8: ingestor atomicity and idempotence.  A failing scan tick leaves
the lastBlockScanned cursor unchanged; re-processing an event already
stored under its (transactionHash, logIndex) key is a no-op on the
stored record; and a successful retry after any failure point produces
exactly the state of a tick that never failed, so the partially
committed work of the failed range has no observable effect. -/
theorem scanner_failure_atomic_idempotent (chain : Chain)
    (blocksPerScan : ℕ) (db : ScannerDB) (f : ScanFailure)
    (rows : List (EventKey × AnnouncementRec)) (key : EventKey)
    (v v0 : AnnouncementRec) (hmem : (key, v0) ∈ rows) :
    (scanTick chain blocksPerScan (some f) db).lastBlockScanned
        = db.lastBlockScanned
    ∧ upsertRow rows key v = rows
    ∧ scanTick chain blocksPerScan none
        (scanTick chain blocksPerScan (some f) db)
      = scanTick chain blocksPerScan none db := by
  have hk : hasKey rows key = true := by
    unfold hasKey
    rw [List.any_eq_true]
    exact ⟨(key, v0), hmem, by simp⟩
  have hup : upsertRow rows key v = rows := upsertRow_of_hasKey rows key v hk
  by_cases hsync :
      chain.currentBlock < db.lastBlockScanned + 1
  · constructor
    · unfold scanTick
      rw [if_pos hsync]
    · exact ⟨hup, by
        unfold scanTick
        rw [if_pos hsync]⟩
  · have hcursor :
        (scanTick chain blocksPerScan (some f) db).lastBlockScanned
          = db.lastBlockScanned := by
      unfold scanTick
      rw [if_neg hsync]
      cases f <;> rfl
    refine ⟨hcursor, hup, ?_⟩
    unfold scanTick
    rw [if_neg hsync]
    cases f with
    | announcementScan k =>
      dsimp only
      rw [if_neg hsync]
      simp only [upsertAll_take_absorb]
      rw [if_neg hsync]
    | depositScan k =>
      dsimp only
      rw [if_neg hsync]
      simp only [upsertAll_take_absorb, upsertAll_absorb]
      rw [if_neg hsync]
    | withdrawalScan k =>
      dsimp only
      rw [if_neg hsync]
      simp only [upsertAll_take_absorb, upsertAll_absorb]
      rw [if_neg hsync]
    | cursorWrite =>
      dsimp only
      rw [if_neg hsync]
      simp only [upsertAll_absorb]
      rw [if_neg hsync]

/-- C8 witness: a concrete chain with one announcement, an empty
database and a failure during the deposit scan. -/
theorem scanner_failure_atomic_idempotent_witness :
    ((⟨{ transactionHash := 1, logIndex := 0 }, annRecW⟩ :
        EventKey × AnnouncementRec)
      ∈ [({ transactionHash := 1, logIndex := 0 }, annRecW)])
    ∧ ((scanTick chainW 10 (some (.depositScan 0))
          { lastBlockScanned := 0, announcements := [], deposits := []
            withdrawals := [] }).lastBlockScanned
        = ({ lastBlockScanned := 0, announcements := [], deposits := []
             withdrawals := [] } : ScannerDB).lastBlockScanned
      ∧ upsertRow [({ transactionHash := 1, logIndex := 0 }, annRecW)]
          { transactionHash := 1, logIndex := 0 } annRecW
        = [({ transactionHash := 1, logIndex := 0 }, annRecW)]
      ∧ scanTick chainW 10 none
          (scanTick chainW 10 (some (.depositScan 0))
            { lastBlockScanned := 0, announcements := [], deposits := []
              withdrawals := [] })
        = scanTick chainW 10 none
            { lastBlockScanned := 0, announcements := [], deposits := []
              withdrawals := [] }) :=
  ⟨by decide,
    scanner_failure_atomic_idempotent chainW 10
      { lastBlockScanned := 0, announcements := [], deposits := []
        withdrawals := [] } (.depositScan 0)
      [({ transactionHash := 1, logIndex := 0 }, annRecW)]
      { transactionHash := 1, logIndex := 0 } annRecW annRecW (by decide)⟩

/-- The replica level loop and the contract level loop compute the same
function: both hash an even-indexed node with the previous filled
subtree read before overwriting the slot, and an odd-indexed node with
the stored filled subtree without overwriting it. -/
theorem replicaLevels_eq_contractLevels (H : ℕ → ℕ → ℕ) (fs : List ℕ) :
    ∀ (idx cur : ℕ),
      replicaLevels H fs idx cur = contractLevels H fs idx cur := by
  induction fs with
  | nil => intro idx cur; rfl
  | cons f fs ih =>
    intro idx cur
    unfold replicaLevels contractLevels
    by_cases h : idx % 2 = 0
    · rw [if_pos h, if_pos h]
      dsimp only
      rw [ih]
    · rw [if_neg h, if_neg h]
      dsimp only
      rw [ih]

/-- A sequence of successful contract inserts ends at the root the
replica computes by replaying the same leaves from the same state. -/
theorem insertAll_replay (H : ℕ → ℕ → ℕ) (ls : List ℕ) :
    ∀ t : TreeState, t.nextLeafIndex + ls.length ≤ MAX_LEAVES →
      (insertAll H t ls).map getRoot
        = some (replicaReplay H t.filledSubtrees t.nextLeafIndex (getRoot t)
            ls).2 := by
  induction ls with
  | nil =>
    intro t ht
    rfl
  | cons leaf ls ih =>
    intro t ht
    have hlt : t.nextLeafIndex < MAX_LEAVES := by
      simp only [List.length_cons] at ht
      omega
    unfold insertAll insertLeaf
    rw [if_pos hlt]
    dsimp only
    have h2 := ih
      { nextLeafIndex := t.nextLeafIndex + 1
        filledSubtrees :=
          (contractLevels H t.filledSubtrees t.nextLeafIndex leaf).1
        roots := t.roots
          ++ [(contractLevels H t.filledSubtrees t.nextLeafIndex leaf).2] }
      (by
        show t.nextLeafIndex + 1 + ls.length ≤ MAX_LEAVES
        simp only [List.length_cons] at ht
        omega)
    rw [h2]
    simp only [getRoot, List.getLastD_concat, replicaReplay,
      replicaLevels_eq_contractLevels]

/-- C3: tree replica parity.  For every sequence of at most 2 ^ 20
leaves and every prefix, feeding the prefix through the contract
MerkleTree.insert sequence and through the replica getCurrentRoot
replay yields the same root — in particular the roots agree after every
insertion. -/
theorem tree_replica_parity (H : ℕ → ℕ → ℕ) (leaves : List ℕ)
    (hlen : leaves.length ≤ MAX_LEAVES) (k : ℕ) (hk : k ≤ leaves.length) :
    (insertAll H (initTree H) (leaves.take k)).map getRoot
      = some (getCurrentRoot H (leaves.take k)) := by
  have hlen2 : (initTree H).nextLeafIndex + (leaves.take k).length
      ≤ MAX_LEAVES := by
    show 0 + (leaves.take k).length ≤ MAX_LEAVES
    rw [List.length_take]
    omega
  rw [insertAll_replay H (leaves.take k) (initTree H) hlen2]
  unfold getCurrentRoot
  cases htk : leaves.take k with
  | nil => rfl
  | cons a l =>
    rfl

/-- C3 witness: three leaves over the additive stand-in hash, prefix of
length 2. -/
theorem tree_replica_parity_witness :
    ([5, 6, 7] : List ℕ).length ≤ MAX_LEAVES
    ∧ (2 : ℕ) ≤ ([5, 6, 7] : List ℕ).length
    ∧ (insertAll hashC6 (initTree hashC6) (([5, 6, 7] : List ℕ).take 2)).map
        getRoot
      = some (getCurrentRoot hashC6 (([5, 6, 7] : List ℕ).take 2)) :=
  ⟨by decide, by decide,
    tree_replica_parity hashC6 [5, 6, 7] (by decide) 2 (by decide)⟩

/-- A successful insert sequence extends the root history by exactly one
entry per leaf. -/
theorem insertAll_some_roots_length (H : ℕ → ℕ → ℕ) (ls : List ℕ) :
    ∀ t : TreeState, t.nextLeafIndex + ls.length ≤ MAX_LEAVES →
      ∃ t2, insertAll H t ls = some t2
        ∧ t2.roots.length = t.roots.length + ls.length := by
  induction ls with
  | nil =>
    intro t ht
    exact ⟨t, rfl, rfl⟩
  | cons leaf ls ih =>
    intro t ht
    have hlt : t.nextLeafIndex < MAX_LEAVES := by
      simp only [List.length_cons] at ht
      omega
    obtain ⟨t2, h2, hlen2⟩ := ih
      { nextLeafIndex := t.nextLeafIndex + 1
        filledSubtrees :=
          (contractLevels H t.filledSubtrees t.nextLeafIndex leaf).1
        roots := t.roots
          ++ [(contractLevels H t.filledSubtrees t.nextLeafIndex leaf).2] }
      (by
        show t.nextLeafIndex + 1 + ls.length ≤ MAX_LEAVES
        simp only [List.length_cons] at ht
        omega)
    refine ⟨t2, ?_, ?_⟩
    · unfold insertAll insertLeaf
      rw [if_pos hlt]
      dsimp only
      exact h2
    · rw [hlen2]
      simp only [List.length_append, List.length_cons, List.length_nil]
      omega

/-- getD at an in-bounds index is the indexed element. -/
theorem getD_eq_get {l : List ℕ} {n : ℕ} (h : n < l.length) (d : ℕ) :
    l.getD n d = l[n] := by
  rw [List.getD_eq_getElem?_getD, List.getElem?_eq_getElem h]
  rfl

/-- C6: root history eviction.  After more insertions than the 100-root
window, the oldest root ever produced (the initial root stored when the
tree was set up) is no longer accepted by isKnownRoot — provided the
later roots do not collide with it — while each of the 100 most recently
produced (nonzero) roots is still accepted. -/
theorem root_history_eviction (H : ℕ → ℕ → ℕ) (leaves : List ℕ)
    (hlen : leaves.length ≤ MAX_LEAVES) (hn : 101 ≤ leaves.length)
    (hfresh : ((treeAfter H leaves).roots.drop 1).all
        (fun r => !(r == (treeAfter H leaves).roots.getD 0 0)) = true)
    (i : ℕ)
    (hilo : (treeAfter H leaves).roots.length - 100 ≤ i)
    (hihi : i < (treeAfter H leaves).roots.length)
    (hz : ((treeAfter H leaves).roots.getD i 0 == 0) = false) :
    isKnownRoot (treeAfter H leaves) ((treeAfter H leaves).roots.getD 0 0)
        = false
    ∧ isKnownRoot (treeAfter H leaves) ((treeAfter H leaves).roots.getD i 0)
        = true := by
  obtain ⟨t2, h2, hlen2⟩ := insertAll_some_roots_length H leaves (initTree H)
    (by
      show (initTree H).nextLeafIndex + leaves.length ≤ MAX_LEAVES
      simp only [initTree]
      omega)
  have hT : treeAfter H leaves = t2 := by
    unfold treeAfter
    rw [h2]
    rfl
  rw [hT] at hfresh hilo hihi hz ⊢
  have hroots : t2.roots.length = 1 + leaves.length := by
    rw [hlen2]
    simp [initTree]
  have hn2 : 102 ≤ t2.roots.length := by omega
  have hcur : 100 < t2.roots.length - 1 := by omega
  constructor
  · -- the initial root is outside the window
    unfold isKnownRoot
    by_cases h0 : t2.roots.getD 0 0 = 0
    · rw [if_pos h0]
    · rw [if_neg h0]
      dsimp only
      rw [List.any_eq_false]
      intro x hx
      rw [List.mem_range] at hx
      by_cases hmin : (if 100 < t2.roots.length - 1
          then t2.roots.length - 1 - 100 else 0) ≤ x
      · rw [if_pos hcur] at hmin
        have hx1 : 1 ≤ x := by omega
        have hxlt : x < t2.roots.length := by omega
        have hmem : t2.roots.getD x 0 ∈ t2.roots.drop 1 := by
          rw [getD_eq_get hxlt]
          have hlen1 : x - 1 < (t2.roots.drop 1).length := by
            rw [List.length_drop]
            omega
          have hdrop : t2.roots[x] = (t2.roots.drop 1)[x - 1] := by
            rw [List.getElem_drop]
            congr 1
            omega
          rw [hdrop]
          exact List.getElem_mem _
        have hne := List.all_eq_true.mp hfresh _ hmem
        simp only [Bool.not_eq_true'] at hne
        rw [hne]
        simp
      · rw [decide_eq_false hmin]
        simp
  · -- a recent root is inside the window
    have hne0 : ¬ t2.roots.getD i 0 = 0 := by
      intro hc
      rw [hc] at hz
      simp at hz
    unfold isKnownRoot
    rw [if_neg hne0]
    dsimp only
    rw [List.any_eq_true]
    refine ⟨i, List.mem_range.mpr (by omega), ?_⟩
    rw [Bool.and_eq_true]
    constructor
    · rw [if_pos hcur]
      exact decide_eq_true (by omega)
    · exact beq_self_eq_true _

set_option maxRecDepth 100000 in
/-- C6 witness: 101 insertions of leaf 1 over the additive stand-in
hash; the initial root is evicted while the root at index 2 (the 100th
most recent) is still known. -/
theorem root_history_eviction_witness :
    (List.replicate 101 1 : List ℕ).length ≤ MAX_LEAVES
    ∧ 101 ≤ (List.replicate 101 1 : List ℕ).length
    ∧ ((treeAfter hashC6 (List.replicate 101 1)).roots.drop 1).all
        (fun r =>
          !(r == (treeAfter hashC6 (List.replicate 101 1)).roots.getD 0 0))
      = true
    ∧ (treeAfter hashC6 (List.replicate 101 1)).roots.length - 100 ≤ 2
    ∧ 2 < (treeAfter hashC6 (List.replicate 101 1)).roots.length
    ∧ ((treeAfter hashC6 (List.replicate 101 1)).roots.getD 2 0 == 0) = false
    ∧ (isKnownRoot (treeAfter hashC6 (List.replicate 101 1))
          ((treeAfter hashC6 (List.replicate 101 1)).roots.getD 0 0) = false
      ∧ isKnownRoot (treeAfter hashC6 (List.replicate 101 1))
          ((treeAfter hashC6 (List.replicate 101 1)).roots.getD 2 0) = true) :=
  ⟨by decide, by decide, by decide, by decide, by decide, by decide,
    root_history_eviction hashC6 (List.replicate 101 1) (by decide)
      (by decide) (by decide) 2 (by decide) (by decide) (by decide)⟩

end MPW
